import Mathlib

/-!
# Verification of the faunadb-go expression builder (`faunadb/expr.go`)

A shallow embedding of the expression type system of `expr.go` and of the JSON
serialization it delegates to Go's `encoding/json`.

## The embedding

Go values that flow through this code (`interface{}` arguments, `Expr` nodes)
are modelled by one inductive universe `Val`:

* `vInt`, `vStr`, `vBool`, `vNull` — opaque JSON literals;
* `obj` — the exported `Obj` type (`map[string]interface{}`), a raw user object;
* `arr` — the exported `Arr` type (`[]interface{}`), a raw user array;
* `uObj` — the internal `unescapedObj` (`map[string]Expr`), pre-wrapped object;
* `uArr` — the internal `unescapedArr` (`[]Expr`), pre-wrapped array;
* `invalid` — the internal `invalidExpr`, carrying its captured `err` (errors
  are opaque here and modelled as `String` payloads, compared exactly).

Go maps are unordered; `encoding/json` serializes them with the keys in
byte-lexicographic order (which on UTF-8 strings agrees with the code-point
order of Lean's `String` comparison).  We therefore represent every map by the
canonical key-sorted association list (`Fields`), and map update (`m[k] = v`)
by the order-preserving insert-or-replace `finsert`.

`marshal` models `encoding/json.Marshal` returning `Except String String`:
`Except.error e` models Go's `(nil, err)` return (no bytes produced).
`encoding/json` dispatches on the dynamic type of each value:

* scalars print as JSON literals (strings with Go's escaping, including the
  default HTML escaping of `<`, `>`, `&`);
* `unescapedObj` / `unescapedArr` have no `MarshalJSON`, so they print as a
  plain map / slice, each element marshalled recursively, stopping at the
  first element error;
* `invalidExpr.MarshalJSON` returns `(nil, inv.err)` — exactly the captured
  error, no bytes;
* `Obj.MarshalJSON` / `Arr.MarshalJSON` return `json.Marshal(wrap(x))`, and
  `wrap` of a raw object/array is the pre-wrapped node with every member
  wrapped, so on `obj` / `arr` the serializer recurses into the members
  exactly as it does for `uObj` / `uArr`.  The theorem `marshal_wrap`
  (`marshal (wrap v) = marshal v`) checks that this merged definition is
  consistent with the `Marshal(wrap ...)` composite in the source.

`wrap` itself lives in the repository's serializer file, which is not part of
the excerpt; it is modelled from the spec (see its doc comment).

The optional-parameter machinery (`OptionalParameter`, `applyOptionals`,
`fn1`..`fn4`) uses Go closures that mutate the `unescapedObj` map in place;
the stateful `func(unescapedObj)` procedures become explicit state
transformers `Fields → Fields`, and a separate store-passing model
(`applyOptionalsRef`) keeps the reference semantics of Go maps observable for
the immutability claim.
-/

namespace FaunaExpr

mutual

/-- The universe of Go values handled by `expr.go`: opaque JSON literals,
the exported raw `Obj` / `Arr`, the internal pre-wrapped `unescapedObj` /
`unescapedArr`, and the internal error-carrying `invalidExpr`. -/
inductive Val : Type where
  | vInt : Int → Val
  | vStr : String → Val
  | vBool : Bool → Val
  | vNull : Val
  | invalid : String → Val
  | obj : Fields → Val
  | arr : Elems → Val
  | uObj : Fields → Val
  | uArr : Elems → Val

/-- A Go `map[string]...` in canonical form: an association list kept in
strictly increasing key order (Go maps are unordered and `encoding/json`
serializes their keys sorted). -/
inductive Fields : Type where
  | nil : Fields
  | cons : String → Val → Fields → Fields

/-- A Go slice of values. -/
inductive Elems : Type where
  | nil : Elems
  | cons : Val → Elems → Elems

end

/-- Map update `m[k] = v`: insert keeping the key order, replacing the value
when the key is present. -/
def finsert (k : String) (v : Val) : Fields → Fields
  | Fields.nil => Fields.cons k v Fields.nil
  | Fields.cons k2 v2 rest =>
      if k < k2 then Fields.cons k v (Fields.cons k2 v2 rest)
      else if k = k2 then Fields.cons k v rest
      else Fields.cons k2 v2 (finsert k v rest)

/-- Map lookup `m[k]`. -/
def flookup (k : String) : Fields → Option Val
  | Fields.nil => none
  | Fields.cons k2 v rest => if k = k2 then some v else flookup k rest

/-- The key set of a map, as the list of keys in representation order. -/
def fkeys : Fields → List String
  | Fields.nil => []
  | Fields.cons k _ rest => k :: fkeys rest

/-- Length of a slice. -/
def elength : Elems → Nat
  | Elems.nil => 0
  | Elems.cons _ rest => elength rest + 1

/-- Indexing into a slice. -/
def eget : Nat → Elems → Option Val
  | _, Elems.nil => none
  | 0, Elems.cons v _ => some v
  | n + 1, Elems.cons _ rest => eget n rest

/-- One hexadecimal digit, lower case, as `encoding/json` prints them. -/
def hexDigit (n : Nat) : Char :=
  if n < 10 then Char.ofNat (48 + n) else Char.ofNat (87 + n)

/-- How `encoding/json` escapes one character inside a string literal:
quote, backslash, `\n`, `\r`, `\t`; other control characters as `\u00XX`;
and, by default, HTML-escaping of `<`, `>`, `&`. -/
def escapeChar (c : Char) : String :=
  if c = '"' then "\\\""
  else if c = '\\' then "\\\\"
  else if c = '\n' then "\\n"
  else if c = '\r' then "\\r"
  else if c = '\t' then "\\t"
  else if c = '<' then "\\u003c"
  else if c = '>' then "\\u003e"
  else if c = '&' then "\\u0026"
  else if c.toNat < 32 then
    "\\u00" ++ String.singleton (hexDigit (c.toNat / 16))
            ++ String.singleton (hexDigit (c.toNat % 16))
  else String.singleton c

/-- A JSON string literal for `s`, as `encoding/json` prints it. -/
def jsonQuote (s : String) : String :=
  "\"" ++ String.join (s.toList.map escapeChar) ++ "\""

/-- The separator written after an object member: a comma unless it is the
last member. -/
def fieldSep : Fields → String
  | Fields.nil => ""
  | Fields.cons _ _ _ => ","

/-- The separator written after an array element: a comma unless it is the
last element. -/
def elemSep : Elems → String
  | Elems.nil => ""
  | Elems.cons _ _ => ","

mutual

/-- `encoding/json.Marshal` on the values of this universe.  `Except.error e`
models Go's `(nil, err)` return: serialization failed and produced no bytes.
Dispatch follows Go: scalars print as literals, the map/slice variants print
member by member stopping at the first error, `invalidExpr.MarshalJSON`
returns exactly the captured error, and `Obj`/`Arr` (whose `MarshalJSON` is
`json.Marshal(wrap(x))`, with `wrap` producing the pre-wrapped node of the
wrapped members) recurse into their members the same way — `marshal_wrap`
below certifies that this agrees with the `Marshal ∘ wrap` composite. -/
def marshal : Val → Except String String
  | Val.vInt n => Except.ok (toString n)
  | Val.vStr s => Except.ok (jsonQuote s)
  | Val.vBool b => Except.ok (if b then "true" else "false")
  | Val.vNull => Except.ok "null"
  | Val.invalid e => Except.error e
  | Val.obj f => (marshalFields f).map (fun s => "\x7b" ++ s ++ "\x7d")
  | Val.uObj f => (marshalFields f).map (fun s => "\x7b" ++ s ++ "\x7d")
  | Val.arr es => (marshalElems es).map (fun s => "[" ++ s ++ "]")
  | Val.uArr es => (marshalElems es).map (fun s => "[" ++ s ++ "]")

/-- The comma-separated `"key":value` parts of an object body, members
marshalled in representation (= sorted key) order, first error aborting. -/
def marshalFields : Fields → Except String String
  | Fields.nil => Except.ok ""
  | Fields.cons k v rest =>
      (marshal v).bind (fun sv =>
        (marshalFields rest).map (fun srest =>
          jsonQuote k ++ ":" ++ sv ++ fieldSep rest ++ srest))

/-- The comma-separated element parts of an array body. -/
def marshalElems : Elems → Except String String
  | Elems.nil => Except.ok ""
  | Elems.cons v rest =>
      (marshal v).bind (fun sv =>
        (marshalElems rest).map (fun srest => sv ++ elemSep rest ++ srest))

end

mutual

/-- Modelled from the spec: the function `wrap` is defined in the
repository's serializer file, which is not part of the excerpt under `src/`;
only its callers (`Obj.MarshalJSON`, `Arr.MarshalJSON`, `fn1`..`fn4`) are
visible.  Per the spec's contract: a raw object/array (`Obj` / `Arr`) is
recursively wrapped, every contained value wrapped and the result tagged as
pre-wrapped (`unescapedObj` / `unescapedArr`) so double-wrapping never
occurs; an input that is already a valid (pre-wrapped or invalid) expression
is returned unchanged; any other value is an opaque literal passed through
unchanged. -/
def wrap : Val → Val
  | Val.obj f => Val.uObj (wrapFields f)
  | Val.arr es => Val.uArr (wrapElems es)
  | Val.uObj f => Val.uObj f
  | Val.uArr es => Val.uArr es
  | Val.invalid e => Val.invalid e
  | Val.vInt n => Val.vInt n
  | Val.vStr s => Val.vStr s
  | Val.vBool b => Val.vBool b
  | Val.vNull => Val.vNull

/-- Modelled from the spec: `wrap` applied to every value of a raw object. -/
def wrapFields : Fields → Fields
  | Fields.nil => Fields.nil
  | Fields.cons k v rest => Fields.cons k (wrap v) (wrapFields rest)

/-- Modelled from the spec: `wrap` applied to every element of a raw array. -/
def wrapElems : Elems → Elems
  | Elems.nil => Elems.nil
  | Elems.cons v rest => Elems.cons (wrap v) (wrapElems rest)

end

mutual

/-- Does the tree contain an `invalidExpr` node anywhere? -/
def hasInvalid : Val → Bool
  | Val.invalid _ => true
  | Val.obj f => hasInvalidF f
  | Val.uObj f => hasInvalidF f
  | Val.arr es => hasInvalidE es
  | Val.uArr es => hasInvalidE es
  | Val.vInt _ => false
  | Val.vStr _ => false
  | Val.vBool _ => false
  | Val.vNull => false

/-- Does some value of the map contain an `invalidExpr` node? -/
def hasInvalidF : Fields → Bool
  | Fields.nil => false
  | Fields.cons _ v rest => hasInvalid v || hasInvalidF rest

/-- Does some element of the slice contain an `invalidExpr` node? -/
def hasInvalidE : Elems → Bool
  | Elems.nil => false
  | Elems.cons v rest => hasInvalid v || hasInvalidE rest

end

mutual

/-- The errors captured by the `invalidExpr` nodes of the tree, in the order
serialization meets them. -/
def errorsOf : Val → List String
  | Val.invalid e => [e]
  | Val.obj f => errorsOfF f
  | Val.uObj f => errorsOfF f
  | Val.arr es => errorsOfE es
  | Val.uArr es => errorsOfE es
  | Val.vInt _ => []
  | Val.vStr _ => []
  | Val.vBool _ => []
  | Val.vNull => []

/-- The captured errors in the values of a map. -/
def errorsOfF : Fields → List String
  | Fields.nil => []
  | Fields.cons _ v rest => errorsOf v ++ errorsOfF rest

/-- The captured errors in the elements of a slice. -/
def errorsOfE : Elems → List String
  | Elems.nil => []
  | Elems.cons v rest => errorsOf v ++ errorsOfE rest

end

/-- Go's `byte, _ := Marshal(...); return string(byte)` idiom: on success the
bytes, on failure the marshaller returned `nil` bytes, and `string(nil)` is
the empty string. -/
def bytesOrEmpty : Except String String → String
  | Except.ok s => s
  | Except.error _ => ""

/-- `invalidExpr.MarshalJSON`: `return nil, inv.err` — no bytes, exactly the
captured error. -/
def invalidMarshalJSON (e : String) : Except String String := Except.error e

/-- `Obj.MarshalJSON`: `return json.Marshal(wrap(obj))`. -/
def ObjMarshalJSON (f : Fields) : Except String String := marshal (wrap (Val.obj f))

/-- `Arr.MarshalJSON`: `return json.Marshal(wrap(arr))`. -/
def ArrMarshalJSON (es : Elems) : Except String String := marshal (wrap (Val.arr es))

/-- `unescapedObj.String`: `byte, _ := json.Marshal(obj); return string(byte)`. -/
def unescapedObjString (f : Fields) : String := bytesOrEmpty (marshal (Val.uObj f))

/-- `unescapedArr.String`: `byte, _ := json.Marshal(arr); return string(byte)`. -/
def unescapedArrString (es : Elems) : String := bytesOrEmpty (marshal (Val.uArr es))

/-- `invalidExpr.String`: `byte, _ := inv.MarshalJSON(); return string(byte)`. -/
def invalidExprString (e : String) : String := bytesOrEmpty (invalidMarshalJSON e)

/-- `Obj.String`: `byte, _ := obj.MarshalJSON(); return string(byte)`. -/
def ObjString (f : Fields) : String := bytesOrEmpty (ObjMarshalJSON f)

/-- `Arr.String`: `byte, _ := arr.MarshalJSON(); return string(byte)`. -/
def ArrString (es : Elems) : String := bytesOrEmpty (ArrMarshalJSON es)

/-- The internal, already-safe expression variants (`unescapedObj`,
`unescapedArr`, `invalidExpr`): the inputs the spec's wrap contract calls
"already a valid expression", as opposed to the raw `Obj` / `Arr` shortcuts,
whose contract clause is recursive wrapping. -/
def isWrappedExpr : Val → Bool
  | Val.uObj _ => true
  | Val.uArr _ => true
  | Val.invalid _ => true
  | _ => false

/-- `OptionalParameter` is Go's `func(unescapedObj)`: a procedure that
mutates the map it is given.  The stateful procedure is embedded as an
explicit state transformer on the map value. -/
def OptionalParameter : Type := Fields → Fields

/-- The loop body of `applyOptionals`: run each option on the map, in the
order supplied (state-passing form of `for _, option := range options
\x7b option(fn) \x7d`). -/
def applyOptionalsF : List OptionalParameter → Fields → Fields
  | [], fn => fn
  | option :: rest, fn => applyOptionalsF rest (option fn)

/-- `applyOptionals`: runs every option on the map `fn` in order and returns
`fn` — by then holding the updated entries — as the expression. -/
def applyOptionals (options : List OptionalParameter) (fn : Fields) : Val :=
  Val.uObj (applyOptionalsF options fn)

/-- Modelled from the spec: the query-language option constructors (not part
of the excerpt) build an `OptionalParameter` that stores one wrapped value
under one key (`fn[k] = wrap(v)`), adding the key or overriding an existing
entry. -/
def setKey (k : String) (v : Val) : OptionalParameter :=
  fun fn => finsert k (wrap v) fn

/-- `fn1`: the one-pair function-call builder. -/
def fn1 (k1 : String) (v1 : Val) (options : List OptionalParameter) : Val :=
  applyOptionals options (finsert k1 (wrap v1) Fields.nil)

/-- `fn2`: the two-pair function-call builder (map-literal entries are
inserted in source order, a duplicate key keeping the later value). -/
def fn2 (k1 : String) (v1 : Val) (k2 : String) (v2 : Val)
    (options : List OptionalParameter) : Val :=
  applyOptionals options (finsert k2 (wrap v2) (finsert k1 (wrap v1) Fields.nil))

/-- `fn3`: the three-pair function-call builder. -/
def fn3 (k1 : String) (v1 : Val) (k2 : String) (v2 : Val) (k3 : String) (v3 : Val)
    (options : List OptionalParameter) : Val :=
  applyOptionals options
    (finsert k3 (wrap v3) (finsert k2 (wrap v2) (finsert k1 (wrap v1) Fields.nil)))

/-- `fn4`: the four-pair function-call builder. -/
def fn4 (k1 : String) (v1 : Val) (k2 : String) (v2 : Val) (k3 : String) (v3 : Val)
    (k4 : String) (v4 : Val) (options : List OptionalParameter) : Val :=
  applyOptionals options
    (finsert k4 (wrap v4)
      (finsert k3 (wrap v3) (finsert k2 (wrap v2) (finsert k1 (wrap v1) Fields.nil))))

/-! ## Reference semantics of Go maps

Go maps are reference types: an `unescapedObj` variable denotes a reference
into a store of map values, and `option(fn)` mutates the map behind the
reference.  To keep that observable (it is what the immutability claim is
about), `applyOptionalsRef` re-runs `applyOptionals` over an explicit store:
addresses are indices into a list of map values. -/

/-- A store of Go map values; an address is an index into the store. -/
abbrev Store : Type := List Fields

/-- Dereference an address (out-of-range reads give the empty map; the
theorems only use in-range addresses). -/
def storeGet : Store → Nat → Fields
  | [], _ => Fields.nil
  | f :: _, 0 => f
  | _ :: r, a + 1 => storeGet r a

/-- Overwrite the map value stored at an address (out of range: no effect). -/
def storeSet : Store → Nat → Fields → Store
  | [], _, _ => []
  | _ :: r, 0, x => x :: r
  | f :: r, a + 1, x => f :: storeSet r a x

/-- `applyOptionals` with the reference semantics of Go maps explicit: the
map argument is an address `a`; each `option(fn)` call in the loop mutates
the map stored at `a` in place; after the loop the function returns that
same address as the resulting expression.  First component: the store after
the call; second: the returned reference. -/
def applyOptionalsRef : List OptionalParameter → Store → Nat → Store × Nat
  | [], h, a => (h, a)
  | option :: rest, h, a =>
      applyOptionalsRef rest (storeSet h a (option (storeGet h a))) a

/-! ## Helper lemmas -/

/-- `wrap` is idempotent on the nose: wrapping maps every value to a
non-raw variant, and non-raw variants are returned unchanged. -/
theorem wrap_wrap : ∀ v : Val, wrap (wrap v) = wrap v
  | Val.vInt _ => by simp [wrap]
  | Val.vStr _ => by simp [wrap]
  | Val.vBool _ => by simp [wrap]
  | Val.vNull => by simp [wrap]
  | Val.invalid _ => by simp [wrap]
  | Val.obj _ => by simp [wrap]
  | Val.arr _ => by simp [wrap]
  | Val.uObj _ => by simp [wrap]
  | Val.uArr _ => by simp [wrap]

/-- Wrapping the values of a map leaves the member separators unchanged. -/
theorem fieldSep_wrapFields (f : Fields) : fieldSep (wrapFields f) = fieldSep f := by
  cases f <;> simp [wrapFields, fieldSep]

/-- Wrapping the elements of a slice leaves the separators unchanged. -/
theorem elemSep_wrapElems (es : Elems) : elemSep (wrapElems es) = elemSep es := by
  cases es <;> simp [wrapElems, elemSep]

mutual

/-- Serialization after wrapping equals direct serialization: the merged
`marshal` agrees with the `json.Marshal(wrap(x))` composite used by
`Obj.MarshalJSON` / `Arr.MarshalJSON`. -/
theorem marshal_wrap : ∀ v : Val, marshal (wrap v) = marshal v
  | Val.vInt _ => by simp [wrap]
  | Val.vStr _ => by simp [wrap]
  | Val.vBool _ => by simp [wrap]
  | Val.vNull => by simp [wrap]
  | Val.invalid _ => by simp [wrap]
  | Val.uObj _ => by simp [wrap]
  | Val.uArr _ => by simp [wrap]
  | Val.obj f => by simp [wrap, marshal, marshalFields_wrapFields f]
  | Val.arr es => by simp [wrap, marshal, marshalElems_wrapElems es]

/-- Object bodies marshal the same after wrapping every value. -/
theorem marshalFields_wrapFields :
    ∀ f : Fields, marshalFields (wrapFields f) = marshalFields f
  | Fields.nil => by simp [wrapFields]
  | Fields.cons k v rest => by
      simp [wrapFields, marshalFields, marshal_wrap v,
        marshalFields_wrapFields rest, fieldSep_wrapFields rest]

/-- Array bodies marshal the same after wrapping every element. -/
theorem marshalElems_wrapElems :
    ∀ es : Elems, marshalElems (wrapElems es) = marshalElems es
  | Elems.nil => by simp [wrapElems]
  | Elems.cons v rest => by
      simp [wrapElems, marshalElems, marshal_wrap v,
        marshalElems_wrapElems rest, elemSep_wrapElems rest]

end

mutual

/-- Serialization succeeds exactly on the trees without an invalid node, and
on a tree with invalid nodes it fails with the first captured error met in
serialization order. -/
theorem marshal_errors : ∀ v : Val,
    (errorsOf v = [] → ∃ s, marshal v = Except.ok s) ∧
    (∀ e l, errorsOf v = e :: l → marshal v = Except.error e)
  | Val.vInt n => by simp [errorsOf, marshal]
  | Val.vStr s => by simp [errorsOf, marshal]
  | Val.vBool b => by simp [errorsOf, marshal]
  | Val.vNull => by simp [errorsOf, marshal]
  | Val.invalid e0 => by simp [errorsOf, marshal]
  | Val.obj f => by
      obtain ⟨h1, h2⟩ := marshalFields_errors f
      refine ⟨fun h => ?_, fun e l h => ?_⟩
      · obtain ⟨s, hs⟩ := h1 (by simpa [errorsOf] using h)
        exact ⟨"\x7b" ++ s ++ "\x7d", by simp [marshal, hs, Except.map]⟩
      · have := h2 e l (by simpa [errorsOf] using h)
        simp [marshal, this, Except.map]
  | Val.uObj f => by
      obtain ⟨h1, h2⟩ := marshalFields_errors f
      refine ⟨fun h => ?_, fun e l h => ?_⟩
      · obtain ⟨s, hs⟩ := h1 (by simpa [errorsOf] using h)
        exact ⟨"\x7b" ++ s ++ "\x7d", by simp [marshal, hs, Except.map]⟩
      · have := h2 e l (by simpa [errorsOf] using h)
        simp [marshal, this, Except.map]
  | Val.arr es => by
      obtain ⟨h1, h2⟩ := marshalElems_errors es
      refine ⟨fun h => ?_, fun e l h => ?_⟩
      · obtain ⟨s, hs⟩ := h1 (by simpa [errorsOf] using h)
        exact ⟨"[" ++ s ++ "]", by simp [marshal, hs, Except.map]⟩
      · have := h2 e l (by simpa [errorsOf] using h)
        simp [marshal, this, Except.map]
  | Val.uArr es => by
      obtain ⟨h1, h2⟩ := marshalElems_errors es
      refine ⟨fun h => ?_, fun e l h => ?_⟩
      · obtain ⟨s, hs⟩ := h1 (by simpa [errorsOf] using h)
        exact ⟨"[" ++ s ++ "]", by simp [marshal, hs, Except.map]⟩
      · have := h2 e l (by simpa [errorsOf] using h)
        simp [marshal, this, Except.map]

/-- The object-body form of `marshal_errors`. -/
theorem marshalFields_errors : ∀ f : Fields,
    (errorsOfF f = [] → ∃ s, marshalFields f = Except.ok s) ∧
    (∀ e l, errorsOfF f = e :: l → marshalFields f = Except.error e)
  | Fields.nil => by simp [errorsOfF, marshalFields]
  | Fields.cons k v rest => by
      obtain ⟨hv1, hv2⟩ := marshal_errors v
      obtain ⟨hr1, hr2⟩ := marshalFields_errors rest
      refine ⟨fun h => ?_, fun e l h => ?_⟩
      · rw [errorsOfF, List.append_eq_nil] at h
        obtain ⟨sv, hsv⟩ := hv1 h.1
        obtain ⟨sr, hsr⟩ := hr1 h.2
        exact ⟨jsonQuote k ++ ":" ++ sv ++ fieldSep rest ++ sr,
          by simp [marshalFields, hsv, hsr, Except.bind, Except.map]⟩
      · rw [errorsOfF] at h
        cases hev : errorsOf v with
        | nil =>
            rw [hev, List.nil_append] at h
            obtain ⟨sv, hsv⟩ := hv1 hev
            simp [marshalFields, hsv, hr2 e l h, Except.bind, Except.map]
        | cons e0 l0 =>
            rw [hev, List.cons_append, List.cons.injEq] at h
            simp [marshalFields, hv2 e0 l0 hev, Except.bind, h.1]

/-- The array-body form of `marshal_errors`. -/
theorem marshalElems_errors : ∀ es : Elems,
    (errorsOfE es = [] → ∃ s, marshalElems es = Except.ok s) ∧
    (∀ e l, errorsOfE es = e :: l → marshalElems es = Except.error e)
  | Elems.nil => by simp [errorsOfE, marshalElems]
  | Elems.cons v rest => by
      obtain ⟨hv1, hv2⟩ := marshal_errors v
      obtain ⟨hr1, hr2⟩ := marshalElems_errors rest
      refine ⟨fun h => ?_, fun e l h => ?_⟩
      · rw [errorsOfE, List.append_eq_nil] at h
        obtain ⟨sv, hsv⟩ := hv1 h.1
        obtain ⟨sr, hsr⟩ := hr1 h.2
        exact ⟨sv ++ elemSep rest ++ sr,
          by simp [marshalElems, hsv, hsr, Except.bind, Except.map]⟩
      · rw [errorsOfE] at h
        cases hev : errorsOf v with
        | nil =>
            rw [hev, List.nil_append] at h
            obtain ⟨sv, hsv⟩ := hv1 hev
            simp [marshalElems, hsv, hr2 e l h, Except.bind, Except.map]
        | cons e0 l0 =>
            rw [hev, List.cons_append, List.cons.injEq] at h
            simp [marshalElems, hv2 e0 l0 hev, Except.bind, h.1]

end

mutual

/-- A tree has an invalid node exactly when it has a captured error. -/
theorem hasInvalid_iff_errorsOf :
    ∀ v : Val, hasInvalid v = true ↔ errorsOf v ≠ []
  | Val.vInt _ => by simp [hasInvalid, errorsOf]
  | Val.vStr _ => by simp [hasInvalid, errorsOf]
  | Val.vBool _ => by simp [hasInvalid, errorsOf]
  | Val.vNull => by simp [hasInvalid, errorsOf]
  | Val.invalid _ => by simp [hasInvalid, errorsOf]
  | Val.obj f => by simp [hasInvalid, errorsOf, hasInvalidF_iff_errorsOfF f]
  | Val.uObj f => by simp [hasInvalid, errorsOf, hasInvalidF_iff_errorsOfF f]
  | Val.arr es => by simp [hasInvalid, errorsOf, hasInvalidE_iff_errorsOfE es]
  | Val.uArr es => by simp [hasInvalid, errorsOf, hasInvalidE_iff_errorsOfE es]

/-- The map form of `hasInvalid_iff_errorsOf`. -/
theorem hasInvalidF_iff_errorsOfF :
    ∀ f : Fields, hasInvalidF f = true ↔ errorsOfF f ≠ []
  | Fields.nil => by simp [hasInvalidF, errorsOfF]
  | Fields.cons k v rest => by
      simp [hasInvalidF, errorsOfF, hasInvalid_iff_errorsOf v,
        hasInvalidF_iff_errorsOfF rest, List.append_eq_nil, or_iff_not_imp_left]

/-- The slice form of `hasInvalid_iff_errorsOf`. -/
theorem hasInvalidE_iff_errorsOfE :
    ∀ es : Elems, hasInvalidE es = true ↔ errorsOfE es ≠ []
  | Elems.nil => by simp [hasInvalidE, errorsOfE]
  | Elems.cons v rest => by
      simp [hasInvalidE, errorsOfE, hasInvalid_iff_errorsOf v,
        hasInvalidE_iff_errorsOfE rest, List.append_eq_nil, or_iff_not_imp_left]

end

/-- After `m[k] = v`, looking up `k` finds `v`. -/
theorem flookup_finsert_self : ∀ (k : String) (v : Val) (m : Fields),
    flookup k (finsert k v m) = some v
  | k, v, Fields.nil => by simp [finsert, flookup]
  | k, v, Fields.cons k2 v2 rest => by
      by_cases h1 : k < k2
      · simp [finsert, h1, flookup]
      · by_cases h2 : k = k2
        · simp [finsert, h1, h2, flookup]
        · simp [finsert, h1, h2, flookup, flookup_finsert_self k v rest]

/-- After `m[k] = v`, looking up any other key is unchanged. -/
theorem flookup_finsert_other : ∀ (k2 k : String) (v : Val) (m : Fields),
    k2 ≠ k → flookup k2 (finsert k v m) = flookup k2 m
  | k2, k, v, Fields.nil, hne => by simp [finsert, flookup, hne]
  | k2, k, v, Fields.cons k3 v3 rest, hne => by
      by_cases h1 : k < k3
      · simp [finsert, h1, flookup, hne]
      · by_cases h2 : k = k3
        · subst h2
          simp [finsert, h1, flookup, hne]
        · simp [finsert, h1, h2, flookup,
            flookup_finsert_other k2 k v rest hne]

/-- Wrapping a raw object's values keeps its key set. -/
theorem fkeys_wrapFields : ∀ f : Fields, fkeys (wrapFields f) = fkeys f
  | Fields.nil => by simp [wrapFields]
  | Fields.cons k v rest => by
      simp [wrapFields, fkeys, fkeys_wrapFields rest]

/-- Wrapping a raw object's values maps each lookup through `wrap`. -/
theorem flookup_wrapFields : ∀ (k : String) (f : Fields),
    flookup k (wrapFields f) = Option.map wrap (flookup k f)
  | k, Fields.nil => by simp [wrapFields, flookup]
  | k, Fields.cons k2 v rest => by
      by_cases h : k = k2
      · simp [wrapFields, flookup, h]
      · simp [wrapFields, flookup, h, flookup_wrapFields k rest]

/-- Wrapping a raw array's elements keeps its length. -/
theorem elength_wrapElems : ∀ es : Elems, elength (wrapElems es) = elength es
  | Elems.nil => by simp [wrapElems]
  | Elems.cons v rest => by
      simp [wrapElems, elength, elength_wrapElems rest]

/-- Wrapping a raw array's elements maps each index through `wrap`. -/
theorem eget_wrapElems : ∀ (i : Nat) (es : Elems),
    eget i (wrapElems es) = Option.map wrap (eget i es)
  | _, Elems.nil => by simp [wrapElems, eget]
  | 0, Elems.cons v rest => by simp [wrapElems, eget]
  | i + 1, Elems.cons v rest => by
      simp [wrapElems, eget, eget_wrapElems i rest]

/-- Optional parameters compose in the order supplied: running a
concatenation of modifier lists runs the first list first. -/
theorem applyOptionalsF_append :
    ∀ (o1 o2 : List OptionalParameter) (m : Fields),
      applyOptionalsF (o1 ++ o2) m = applyOptionalsF o2 (applyOptionalsF o1 m)
  | [], o2, m => rfl
  | o :: rest, o2, m => by
      simp [applyOptionalsF, applyOptionalsF_append rest o2 (o m)]

/-- Writing back the value already stored changes nothing. -/
theorem storeSet_storeGet_self : ∀ (h : Store) (a : Nat),
    a < List.length h → storeSet h a (storeGet h a) = h
  | [], a, ha => by simp at ha
  | f :: r, 0, _ => rfl
  | f :: r, a + 1, ha => by
      simp [storeSet, storeGet, storeSet_storeGet_self r a (by simpa using ha)]

/-- Reading back an in-range write. -/
theorem storeGet_storeSet_self : ∀ (h : Store) (a : Nat) (x : Fields),
    a < List.length h → storeGet (storeSet h a x) a = x
  | [], a, x, ha => by simp at ha
  | f :: r, 0, x, _ => rfl
  | f :: r, a + 1, x, ha => by
      simp [storeSet, storeGet, storeGet_storeSet_self r a x (by simpa using ha)]

/-- Two writes at one address collapse to the second. -/
theorem storeSet_storeSet : ∀ (h : Store) (a : Nat) (x y : Fields),
    storeSet (storeSet h a x) a y = storeSet h a y
  | [], _, _, _ => rfl
  | f :: r, 0, x, y => rfl
  | f :: r, a + 1, x, y => by
      simp [storeSet, storeSet_storeSet r a x y]

/-- A write keeps the store's length. -/
theorem storeSet_length : ∀ (h : Store) (a : Nat) (x : Fields),
    List.length (storeSet h a x) = List.length h
  | [], _, _ => rfl
  | f :: r, 0, x => rfl
  | f :: r, a + 1, x => by
      simp [storeSet, storeSet_length r a x]

/-- What the store-passing `applyOptionals` really does with an in-range
reference: it mutates the map at the given address in place — the new store
holds, at that same address, the ordered application of the modifiers to the
old map value — and returns the address it was given. -/
theorem applyOptionalsRef_spec :
    ∀ (opts : List OptionalParameter) (h : Store) (a : Nat),
      a < List.length h →
      applyOptionalsRef opts h a = (storeSet h a (applyOptionalsF opts (storeGet h a)), a)
  | [], h, a, ha => by
      simp [applyOptionalsRef, applyOptionalsF, storeSet_storeGet_self h a ha]
  | o :: rest, h, a, ha => by
      have hlen : a < List.length (storeSet h a (o (storeGet h a))) := by
        rw [storeSet_length]; exact ha
      rw [applyOptionalsRef, applyOptionalsRef_spec rest _ a hlen,
        storeGet_storeSet_self h a _ ha, storeSet_storeSet]
      rfl

/-! ## The claims -/

/-- C1: serializing an invalid-expression node always fails, produces no
JSON bytes, and surfaces exactly the captured error (`MarshalJSON` returns
`(nil, inv.err)`); a tree containing an invalid node anywhere fails with,
exactly, the error captured by the first invalid node serialization meets;
and an expression that serializes successfully contains no invalid node. -/
theorem C1_invalid_serialization_fails :
    (∀ e : String, invalidMarshalJSON e = Except.error e ∧
        marshal (Val.invalid e) = Except.error e) ∧
    (∀ v : Val, hasInvalid v = true →
        ∃ e l, errorsOf v = e :: l ∧ marshal v = Except.error e) ∧
    (∀ (v : Val) (s : String), marshal v = Except.ok s → hasInvalid v = false) := by
  refine ⟨fun e => ⟨rfl, by simp [marshal]⟩, fun v hv => ?_, fun v s hs => ?_⟩
  · have hne := (hasInvalid_iff_errorsOf v).mp hv
    cases hev : errorsOf v with
    | nil => exact absurd hev hne
    | cons e l => exact ⟨e, l, rfl, (marshal_errors v).2 e l hev⟩
  · by_contra hinv
    rw [Bool.not_eq_false] at hinv
    have hne := (hasInvalid_iff_errorsOf v).mp hinv
    cases hev : errorsOf v with
    | nil => exact hne hev
    | cons e l =>
        have herr := (marshal_errors v).2 e l hev
        rw [herr] at hs
        exact Except.noConfusion hs

/-- Witness for C1 at a concrete tree holding one invalid node. -/
theorem C1_invalid_serialization_fails_witness :
    marshal (Val.uObj (Fields.cons "a" (Val.invalid "boom") Fields.nil))
      = Except.error "boom" ∧
    invalidMarshalJSON "boom" = Except.error "boom" := by
  obtain ⟨h0, h1, h2⟩ := C1_invalid_serialization_fails
  refine ⟨?_, (h0 "boom").1⟩
  obtain ⟨e, l, he, hm⟩ :=
    h1 (Val.uObj (Fields.cons "a" (Val.invalid "boom") Fields.nil))
      (by simp [hasInvalid, hasInvalidF])
  simp [errorsOf, errorsOfF, List.cons.injEq] at he
  rw [← he.1] at hm
  exact hm

/-- C2: wrapping is idempotent — `wrap (wrap E)` serializes exactly like
`wrap E` (indeed `wrap (wrap E) = wrap E` on the nose), and an input that is
already a valid (pre-wrapped or invalid) internal expression is returned
unchanged. -/
theorem C2_wrap_idempotent :
    (∀ v : Val, marshal (wrap (wrap v)) = marshal (wrap v)) ∧
    (∀ v : Val, wrap (wrap v) = wrap v) ∧
    (∀ v : Val, isWrappedExpr v = true → wrap v = v) := by
  refine ⟨fun v => by rw [wrap_wrap], fun v => wrap_wrap v, fun v hv => ?_⟩
  cases v <;> simp_all [isWrappedExpr, wrap]

/-- Witness for C2 at a concrete raw object and a concrete pre-wrapped
object. -/
theorem C2_wrap_idempotent_witness :
    wrap (wrap (Val.obj (Fields.cons "k" (Val.vInt 2) Fields.nil)))
      = wrap (Val.obj (Fields.cons "k" (Val.vInt 2) Fields.nil)) ∧
    wrap (Val.uObj Fields.nil) = Val.uObj Fields.nil := by
  obtain ⟨h1, h2, h3⟩ := C2_wrap_idempotent
  exact ⟨h2 _, h3 _ (by simp [isWrappedExpr])⟩

/-- C3: optional-parameter modifiers are applied strictly in the order
supplied; a modifier may add a key or override an existing one; and when two
modifiers both set key "ttl" the second (last-applied) value wins. -/
theorem C3_optionals_order :
    (∀ (o1 o2 : List OptionalParameter) (m : Fields),
        applyOptionalsF (o1 ++ o2) m = applyOptionalsF o2 (applyOptionalsF o1 m)) ∧
    (∀ (k : String) (v : Val) (m : Fields),
        flookup k (setKey k v m) = some (wrap v)) ∧
    (∀ (k2 k : String) (v : Val) (m : Fields), k2 ≠ k →
        flookup k2 (setKey k v m) = flookup k2 m) ∧
    (∀ (m : Fields) (a b : Val),
        applyOptionals [setKey "ttl" a, setKey "ttl" b] m
          = Val.uObj (finsert "ttl" (wrap b) (finsert "ttl" (wrap a) m)) ∧
        flookup "ttl" (applyOptionalsF [setKey "ttl" a, setKey "ttl" b] m)
          = some (wrap b)) := by
  refine ⟨applyOptionalsF_append, fun k v m => flookup_finsert_self k (wrap v) m,
    fun k2 k v m h => flookup_finsert_other k2 k (wrap v) m h,
    fun m a b => ⟨rfl, ?_⟩⟩
  simp [applyOptionalsF, setKey, flookup_finsert_self]

/-- Witness for C3: two "ttl" modifiers leave the second value, and setting
"ttl" leaves the entry under another key alone. -/
theorem C3_optionals_order_witness :
    flookup "ttl"
        (applyOptionalsF [setKey "ttl" (Val.vInt 1), setKey "ttl" (Val.vInt 2)]
          Fields.nil)
      = some (Val.vInt 2) ∧
    flookup "other"
        (setKey "ttl" (Val.vInt 1) (Fields.cons "other" Val.vNull Fields.nil))
      = some Val.vNull := by
  obtain ⟨h1, h2, h3, h4⟩ := C3_optionals_order
  constructor
  · have := (h4 Fields.nil (Val.vInt 1) (Val.vInt 2)).2
    simpa [wrap] using this
  · have := h3 "other" "ttl" (Val.vInt 1)
      (Fields.cons "other" Val.vNull Fields.nil) (by decide)
    rw [this]
    simp [flookup]

/-- C4: each of fn1..fn4 builds the pre-wrapped object whose entries map
each supplied key to its wrapped value (map-literal insertion order, later
duplicate keys winning), then applies the optional-parameter modifiers in
order to that object; with pairwise distinct keys, every supplied key looks
up to its wrapped value in the built object. -/
theorem C4_fn_builders :
    ∀ (k1 k2 k3 k4 : String) (v1 v2 v3 v4 : Val) (opts : List OptionalParameter),
      (fn1 k1 v1 opts = applyOptionals opts (finsert k1 (wrap v1) Fields.nil)) ∧
      (fn2 k1 v1 k2 v2 opts
        = applyOptionals opts
            (finsert k2 (wrap v2) (finsert k1 (wrap v1) Fields.nil))) ∧
      (fn3 k1 v1 k2 v2 k3 v3 opts
        = applyOptionals opts
            (finsert k3 (wrap v3)
              (finsert k2 (wrap v2) (finsert k1 (wrap v1) Fields.nil)))) ∧
      (fn4 k1 v1 k2 v2 k3 v3 k4 v4 opts
        = applyOptionals opts
            (finsert k4 (wrap v4)
              (finsert k3 (wrap v3)
                (finsert k2 (wrap v2) (finsert k1 (wrap v1) Fields.nil))))) ∧
      (flookup k1 (finsert k1 (wrap v1) Fields.nil) = some (wrap v1)) ∧
      (k1 ≠ k2 →
        flookup k1 (finsert k2 (wrap v2) (finsert k1 (wrap v1) Fields.nil))
          = some (wrap v1) ∧
        flookup k2 (finsert k2 (wrap v2) (finsert k1 (wrap v1) Fields.nil))
          = some (wrap v2)) ∧
      (k1 ≠ k2 ∧ k1 ≠ k3 ∧ k2 ≠ k3 →
        flookup k1
            (finsert k3 (wrap v3)
              (finsert k2 (wrap v2) (finsert k1 (wrap v1) Fields.nil)))
          = some (wrap v1) ∧
        flookup k2
            (finsert k3 (wrap v3)
              (finsert k2 (wrap v2) (finsert k1 (wrap v1) Fields.nil)))
          = some (wrap v2) ∧
        flookup k3
            (finsert k3 (wrap v3)
              (finsert k2 (wrap v2) (finsert k1 (wrap v1) Fields.nil)))
          = some (wrap v3)) ∧
      (k1 ≠ k2 ∧ k1 ≠ k3 ∧ k1 ≠ k4 ∧ k2 ≠ k3 ∧ k2 ≠ k4 ∧ k3 ≠ k4 →
        flookup k1
            (finsert k4 (wrap v4)
              (finsert k3 (wrap v3)
                (finsert k2 (wrap v2) (finsert k1 (wrap v1) Fields.nil))))
          = some (wrap v1) ∧
        flookup k4
            (finsert k4 (wrap v4)
              (finsert k3 (wrap v3)
                (finsert k2 (wrap v2) (finsert k1 (wrap v1) Fields.nil))))
          = some (wrap v4)) := by
  intro k1 k2 k3 k4 v1 v2 v3 v4 opts
  refine ⟨rfl, rfl, rfl, rfl, flookup_finsert_self k1 (wrap v1) Fields.nil,
    fun h12 => ⟨?_, flookup_finsert_self _ _ _⟩,
    fun h123 => ⟨?_, ?_, flookup_finsert_self _ _ _⟩,
    fun h1234 => ⟨?_, flookup_finsert_self _ _ _⟩⟩
  · rw [flookup_finsert_other k1 k2 _ _ h12]
    exact flookup_finsert_self _ _ _
  · rw [flookup_finsert_other k1 k3 _ _ h123.2.1,
      flookup_finsert_other k1 k2 _ _ h123.1]
    exact flookup_finsert_self _ _ _
  · rw [flookup_finsert_other k2 k3 _ _ h123.2.2]
    exact flookup_finsert_self _ _ _
  · rw [flookup_finsert_other k1 k4 _ _ h1234.2.2.1,
      flookup_finsert_other k1 k3 _ _ h1234.2.1,
      flookup_finsert_other k1 k2 _ _ h1234.1]
    exact flookup_finsert_self _ _ _

/-- Witness for C4 at concrete keys, values and an empty modifier list. -/
theorem C4_fn_builders_witness :
    fn1 "a" (Val.vInt 1) []
      = applyOptionals [] (finsert "a" (wrap (Val.vInt 1)) Fields.nil) ∧
    flookup "a"
        (finsert "d" (wrap (Val.vInt 4))
          (finsert "c" (wrap (Val.vInt 3))
            (finsert "b" (wrap (Val.vInt 2))
              (finsert "a" (wrap (Val.vInt 1)) Fields.nil))))
      = some (wrap (Val.vInt 1)) := by
  obtain ⟨hs1, -, -, -, -, -, -, h8⟩ :=
    C4_fn_builders "a" "b" "c" "d" (Val.vInt 1) (Val.vInt 2) (Val.vInt 3)
      (Val.vInt 4) []
  exact ⟨hs1, (h8 (by decide)).1⟩

/-- C5: `fn1("query", 1)` with no optional parameters serializes to exactly
the JSON object with the single member `"query":1`. -/
theorem C5_fn1_query_serialization :
    marshal (fn1 "query" (Val.vInt 1) []) = Except.ok "\x7b\"query\":1\x7d" := by
  simp [fn1, applyOptionals, applyOptionalsF, finsert, wrap, marshal,
    marshalFields, fieldSep, jsonQuote, escapeChar, String.join, Except.bind,
    Except.map]
  decide

/-- C6: wrapping a raw object yields the pre-wrapped object with exactly the
same key set, each key mapped to its recursively wrapped value; its
serialization succeeds whenever the object holds no invalid node; and the
nested example serializes with "data" mapped to the nested JSON object. -/
theorem C6_wrap_obj :
    (∀ f : Fields,
        wrap (Val.obj f) = Val.uObj (wrapFields f) ∧
        fkeys (wrapFields f) = fkeys f ∧
        (∀ k, flookup k (wrapFields f) = Option.map wrap (flookup k f)) ∧
        (hasInvalidF f = false →
          ∃ s, marshal (wrap (Val.obj f)) = Except.ok s)) ∧
    marshal (wrap (Val.obj (Fields.cons "data"
        (Val.obj (Fields.cons "name" (Val.vStr "John") Fields.nil)) Fields.nil)))
      = Except.ok "\x7b\"data\":\x7b\"name\":\"John\"\x7d\x7d" := by
  constructor
  · intro f
    refine ⟨by simp [wrap], fkeys_wrapFields f, fun k => flookup_wrapFields k f,
      fun hinv => ?_⟩
    rw [marshal_wrap]
    apply (marshal_errors (Val.obj f)).1
    have hz : errorsOfF f = [] := by
      by_contra hne
      have := (hasInvalidF_iff_errorsOfF f).mpr hne
      rw [hinv] at this
      exact Bool.noConfusion this
    simpa [errorsOf] using hz
  · rw [marshal_wrap]
    simp [marshal, marshalFields, fieldSep, jsonQuote, escapeChar,
      String.join, Except.bind, Except.map]
    decide

/-- Witness for C6 at a concrete invalid-free raw object. -/
theorem C6_wrap_obj_witness :
    ∃ s, marshal (wrap (Val.obj (Fields.cons "k" (Val.vInt 7) Fields.nil)))
      = Except.ok s := by
  obtain ⟨h1, -⟩ := C6_wrap_obj
  exact (h1 (Fields.cons "k" (Val.vInt 7) Fields.nil)).2.2.2
    (by simp [hasInvalidF, hasInvalid])

/-- C7: wrapping a raw array yields the pre-wrapped array of the same
length whose element at every index is the wrapped form of the original
element, in the same order; its serialization succeeds whenever the array
holds no invalid node; and a concrete two-element array serializes
elementwise. -/
theorem C7_wrap_arr :
    (∀ es : Elems,
        wrap (Val.arr es) = Val.uArr (wrapElems es) ∧
        elength (wrapElems es) = elength es ∧
        (∀ i, eget i (wrapElems es) = Option.map wrap (eget i es)) ∧
        (hasInvalidE es = false →
          ∃ s, marshal (wrap (Val.arr es)) = Except.ok s)) ∧
    marshal (wrap (Val.arr (Elems.cons (Val.vInt 1)
        (Elems.cons (Val.vStr "x") Elems.nil))))
      = Except.ok "[1,\"x\"]" := by
  constructor
  · intro es
    refine ⟨by simp [wrap], elength_wrapElems es, fun i => eget_wrapElems i es,
      fun hinv => ?_⟩
    rw [marshal_wrap]
    apply (marshal_errors (Val.arr es)).1
    have hz : errorsOfE es = [] := by
      by_contra hne
      have := (hasInvalidE_iff_errorsOfE es).mpr hne
      rw [hinv] at this
      exact Bool.noConfusion this
    simpa [errorsOf] using hz
  · rw [marshal_wrap]
    simp [marshal, marshalElems, elemSep, jsonQuote, escapeChar,
      String.join, Except.bind, Except.map]
    decide

/-- Witness for C7 at a concrete invalid-free raw array. -/
theorem C7_wrap_arr_witness :
    ∃ s, marshal (wrap (Val.arr (Elems.cons Val.vNull Elems.nil)))
      = Except.ok s := by
  obtain ⟨h1, -⟩ := C7_wrap_arr
  exact (h1 (Elems.cons Val.vNull Elems.nil)).2.2.2
    (by simp [hasInvalidE, hasInvalid])

/-- C8 counterexample: under the reference semantics of Go maps,
`applyOptionals` does not return a new node.  Run with one modifier on the
(existing, empty) map stored at address 0, it returns that same address 0,
and the map stored there afterwards differs from the map that was there
before the call: the existing node was mutated in place. -/
theorem C8_counterexample :
    (applyOptionalsRef [setKey "ttl" (Val.vInt 1)] [Fields.nil] 0).2 = 0 ∧
    storeGet (applyOptionalsRef [setKey "ttl" (Val.vInt 1)] [Fields.nil] 0).1 0
      ≠ storeGet [Fields.nil] 0 := by
  constructor
  · rfl
  · simp [applyOptionalsRef, storeSet, storeGet, setKey, wrap, finsert]

/-- C8 as amended: `wrap` and `fn1`..`fn4` construct new nodes and
serialization is a pure function of the tree, but `applyOptionals` applies
its modifiers by mutating, in place, the object it is given — afterwards the
store holds, at the very address it returns, the ordered application of the
modifiers to the old map value — rather than by returning a new node.
(`fn1`..`fn4` hand it a freshly allocated map literal, so no node existing
before a builder call is ever mutated by them.) -/
theorem C8_applyOptionals_mutates_in_place :
    ∀ (opts : List OptionalParameter) (h : Store) (a : Nat),
      a < List.length h →
      applyOptionalsRef opts h a
        = (storeSet h a (applyOptionalsF opts (storeGet h a)), a) :=
  applyOptionalsRef_spec

/-- Witness for the amended C8 at a concrete store and modifier list. -/
theorem C8_applyOptionals_mutates_in_place_witness :
    applyOptionalsRef [setKey "x" Val.vNull] [Fields.nil] 0
      = (storeSet [Fields.nil] 0
          (applyOptionalsF [setKey "x" Val.vNull] (storeGet [Fields.nil] 0)), 0) :=
  C8_applyOptionals_mutates_in_place [setKey "x" Val.vNull] [Fields.nil] 0
    (by decide)

/-- C9: every `String()` method discards the serialization error: an
invalid expression prints as the empty string, and an `Obj`, `Arr`,
`unescapedObj` or `unescapedArr` whose marshalling fails because it contains
an invalid node prints as the empty string instead of surfacing the captured
error. -/
theorem C9_string_discards_error :
    (∀ e : String, invalidExprString e = "") ∧
    (∀ f : Fields, hasInvalidF f = true →
        unescapedObjString f = "" ∧ ObjString f = "") ∧
    (∀ es : Elems, hasInvalidE es = true →
        unescapedArrString es = "" ∧ ArrString es = "") := by
  refine ⟨fun e => rfl, fun f hf => ?_, fun es hes => ?_⟩
  · have hne := (hasInvalidF_iff_errorsOfF f).mp hf
    cases hev : errorsOfF f with
    | nil => exact absurd hev hne
    | cons e l =>
        have h1 : marshal (Val.uObj f) = Except.error e :=
          (marshal_errors (Val.uObj f)).2 e l (by simpa [errorsOf] using hev)
        have h2 : marshal (Val.obj f) = Except.error e :=
          (marshal_errors (Val.obj f)).2 e l (by simpa [errorsOf] using hev)
        constructor
        · simp [unescapedObjString, h1, bytesOrEmpty]
        · simp [ObjString, ObjMarshalJSON, marshal_wrap, h2, bytesOrEmpty]
  · have hne := (hasInvalidE_iff_errorsOfE es).mp hes
    cases hev : errorsOfE es with
    | nil => exact absurd hev hne
    | cons e l =>
        have h1 : marshal (Val.uArr es) = Except.error e :=
          (marshal_errors (Val.uArr es)).2 e l (by simpa [errorsOf] using hev)
        have h2 : marshal (Val.arr es) = Except.error e :=
          (marshal_errors (Val.arr es)).2 e l (by simpa [errorsOf] using hev)
        constructor
        · simp [unescapedArrString, h1, bytesOrEmpty]
        · simp [ArrString, ArrMarshalJSON, marshal_wrap, h2, bytesOrEmpty]

/-- Witness for C9 at a concrete object holding an invalid node. -/
theorem C9_string_discards_error_witness :
    unescapedObjString (Fields.cons "a" (Val.invalid "x") Fields.nil) = "" ∧
    ObjString (Fields.cons "a" (Val.invalid "x") Fields.nil) = "" ∧
    invalidExprString "x" = "" := by
  obtain ⟨h1, h2, h3⟩ := C9_string_discards_error
  refine ⟨?_, ?_, h1 "x"⟩
  · exact (h2 _ (by simp [hasInvalidF, hasInvalid])).1
  · exact (h2 _ (by simp [hasInvalidF, hasInvalid])).2

/-- C10: `applyOptionals` with an empty modifier list is the identity on its
object argument: it returns exactly the map it was given, with its original
entries. -/
theorem C10_applyOptionals_empty :
    ∀ m : Fields,
      applyOptionals [] m = Val.uObj m ∧
      applyOptionalsF [] m = m ∧
      (∀ k, flookup k (applyOptionalsF [] m) = flookup k m) ∧
      fkeys (applyOptionalsF [] m) = fkeys m :=
  fun _ => ⟨rfl, rfl, fun _ => rfl, rfl⟩

end FaunaExpr
